import Mathlib

/-!
Shallow embedding of the attention kernel in
onnxruntime/contrib_ops/cuda/bert/attention_impl.cu and of
orttraining/orttraining/training_ops/cpu/controlflow/record.cc,
with theorems checking the natural-language specification against it.

Modelling conventions.
* CUDA float arithmetic on finite values is modelled exactly over the
  rationals; the IEEE special values that the kernels can produce through
  division by a zero sum are modelled by the type FV below
  (finite, plus-infinity, minus-infinity, NaN), with IEEE rules for the
  operations the kernels perform on them.
* expf is an uninterpreted parameter E of type rationals to rationals;
  theorems that need it add the positivity hypothesis that the real
  exponential satisfies.
* Machine integers (int, size_t) are modelled by natural numbers, and the
  mask entries (which the code reads as int and does not validate) by
  integers.  The dimension arguments are natural numbers; the sizing
  arithmetic of the kernels stays far from 32-bit or 64-bit overflow for
  the tensor shapes the operator accepts, so wrap-around is not modelled.
-/

/-! ## Workspace sizing (attention_impl.cu lines 37 to 53)

CeilDiv comes from core/providers/cuda/cu_inc/common.cuh, which is not part
of this excerpt.  Modelled from the spec: alignTo rounds its first argument
up to the next multiple of the second (spec section 4.1, align(bytes, 256)).
-/

def alignTo (a b : ℕ) : ℕ := (a + b - 1) / b * b

/-- scratchSize: bytes of one score scratch region, aligned to 256. -/
def scratchSize (element_size batch_size num_heads sequence_length : ℕ) : ℕ :=
  alignTo (batch_size * num_heads * sequence_length * sequence_length * element_size) 256

/-- getAttentionWorkspaceSize: qkv_size + 2 * scratchSize. -/
def getAttentionWorkspaceSize (element_size batch_size num_heads head_size sequence_length : ℕ) : ℕ :=
  3 * batch_size * sequence_length * num_heads * head_size * element_size +
    2 * scratchSize element_size batch_size num_heads sequence_length

lemma alignTo256_dvd (a : ℕ) : 256 ∣ alignTo a 256 := by
  unfold alignTo; omega

lemma alignTo256_ge (a : ℕ) : a ≤ alignTo a 256 := by
  unfold alignTo; omega

lemma alignTo256_lt (a : ℕ) : alignTo a 256 < a + 256 := by
  unfold alignTo; omega

lemma alignTo256_mono {a b : ℕ} (h : a ≤ b) : alignTo a 256 ≤ alignTo b 256 := by
  unfold alignTo; omega

lemma alignTo256_even {e : ℕ} (a : ℕ) (he : e = 2 ∨ e = 4) : e ∣ alignTo a 256 := by
  rcases he with h | h <;> subst h <;> unfold alignTo <;> omega

/-! ## Workspace subdivision performed by qkvToCtx (lines 339 to 342)

scratch1 = workspace, scratch2 = scratch1 + bytes / element_size,
scratch3 = scratch2 + bytes / element_size, offsets in elements.
-/

def scratch1Off : ℕ := 0

def scratch2Off (e b n s : ℕ) : ℕ := scratch1Off + scratchSize e b n s / e

def scratch3Off (e b n s : ℕ) : ℕ := scratch2Off e b n s + scratchSize e b n s / e

/-- C3: scratchSize equals batch * heads * seq * seq * elemSize rounded up to a
multiple of 256 (a multiple of 256, at least the raw byte count, and less than
the raw byte count plus 256), and getAttentionWorkspaceSize equals
3*B*S*N*H*e plus twice scratchSize.  Both are pure functions. -/
theorem scratchSize_workspace_formula :
    ∀ e b n h s : ℕ,
      256 ∣ scratchSize e b n s
      ∧ b * n * s * s * e ≤ scratchSize e b n s
      ∧ scratchSize e b n s < b * n * s * s * e + 256
      ∧ getAttentionWorkspaceSize e b n h s
          = 3 * b * s * n * h * e + 2 * scratchSize e b n s := by
  intro e b n h s
  refine ⟨alignTo256_dvd _, alignTo256_ge _, alignTo256_lt _, rfl⟩

/-- C9: getAttentionWorkspaceSize is monotone non-decreasing in every
dimension argument. -/
theorem getAttentionWorkspaceSize_monotone
    (e b b2 n n2 h h2 s s2 : ℕ)
    (hb : b ≤ b2) (hn : n ≤ n2) (hh : h ≤ h2) (hs : s ≤ s2) :
    getAttentionWorkspaceSize e b n h s ≤ getAttentionWorkspaceSize e b2 n2 h2 s2 := by
  unfold getAttentionWorkspaceSize
  have h1 : 3 * b * s * n * h * e ≤ 3 * b2 * s2 * n2 * h2 * e := by
    gcongr
  have h2 : scratchSize e b n s ≤ scratchSize e b2 n2 s2 := by
    unfold scratchSize
    exact alignTo256_mono (by gcongr)
  omega

/-- Witness for C9 at a concrete input. -/
theorem getAttentionWorkspaceSize_monotone_witness :
    ((1 : ℕ) ≤ 2 ∧ (1 : ℕ) ≤ 1 ∧ (1 : ℕ) ≤ 1 ∧ (1 : ℕ) ≤ 3)
    ∧ getAttentionWorkspaceSize 4 1 1 1 1 ≤ getAttentionWorkspaceSize 4 2 1 1 3 :=
  ⟨by omega,
   getAttentionWorkspaceSize_monotone 4 1 2 1 1 1 1 1 3
     (by omega) (by omega) (by omega) (by omega)⟩

/-- C4: with element size 2 or 4, the scratch1 and scratch2 regions each span
exactly scratchSize bytes (the aligned size of B*N*S*S elements), scratch3
holds 3*B*S*N*H elements, the three element-index regions are pairwise
disjoint, and together they take exactly getAttentionWorkspaceSize bytes. -/
theorem qkvToCtx_workspace_partition (e b n h s : ℕ) (he : e = 2 ∨ e = 4) :
    (scratch2Off e b n s - scratch1Off) * e = scratchSize e b n s
    ∧ (scratch3Off e b n s - scratch2Off e b n s) * e = scratchSize e b n s
    ∧ b * n * s * s * e ≤ scratchSize e b n s
    ∧ Disjoint (Set.Ico scratch1Off (scratch2Off e b n s))
        (Set.Ico (scratch2Off e b n s) (scratch3Off e b n s))
    ∧ Disjoint (Set.Ico (scratch2Off e b n s) (scratch3Off e b n s))
        (Set.Ico (scratch3Off e b n s) (scratch3Off e b n s + 3 * b * s * n * h))
    ∧ Disjoint (Set.Ico scratch1Off (scratch2Off e b n s))
        (Set.Ico (scratch3Off e b n s) (scratch3Off e b n s + 3 * b * s * n * h))
    ∧ (scratch3Off e b n s + 3 * b * s * n * h) * e
        = getAttentionWorkspaceSize e b n h s := by
  have hdvd : e ∣ scratchSize e b n s := alignTo256_even _ he
  have hcancel : scratchSize e b n s / e * e = scratchSize e b n s :=
    Nat.div_mul_cancel hdvd
  refine ⟨?_, ?_, alignTo256_ge _, ?_, ?_, ?_, ?_⟩
  · simp only [scratch2Off, scratch1Off, Nat.zero_add, Nat.sub_zero]
    exact hcancel
  · simp only [scratch3Off, Nat.add_sub_cancel_left]
    exact hcancel
  · rw [Set.disjoint_left]
    intro x hx hx2
    simp only [Set.mem_Ico] at hx hx2
    omega
  · rw [Set.disjoint_left]
    intro x hx hx2
    simp only [Set.mem_Ico, scratch3Off] at hx hx2
    omega
  · rw [Set.disjoint_left]
    intro x hx hx2
    simp only [Set.mem_Ico, scratch3Off, scratch2Off, scratch1Off] at hx hx2
    omega
  · unfold getAttentionWorkspaceSize scratch3Off scratch2Off scratch1Off
    rw [Nat.add_mul, Nat.add_mul, Nat.zero_add, hcancel]
    ring

/-- Witness for C4 at a concrete input. -/
theorem qkvToCtx_workspace_partition_witness :
    ((4 : ℕ) = 2 ∨ (4 : ℕ) = 4)
    ∧ ((scratch2Off 4 1 1 1 - scratch1Off) * 4 = scratchSize 4 1 1 1
      ∧ (scratch3Off 4 1 1 1 - scratch2Off 4 1 1 1) * 4 = scratchSize 4 1 1 1
      ∧ 1 * 1 * 1 * 1 * 4 ≤ scratchSize 4 1 1 1
      ∧ Disjoint (Set.Ico scratch1Off (scratch2Off 4 1 1 1))
          (Set.Ico (scratch2Off 4 1 1 1) (scratch3Off 4 1 1 1))
      ∧ Disjoint (Set.Ico (scratch2Off 4 1 1 1) (scratch3Off 4 1 1 1))
          (Set.Ico (scratch3Off 4 1 1 1) (scratch3Off 4 1 1 1 + 3 * 1 * 1 * 1 * 1))
      ∧ Disjoint (Set.Ico scratch1Off (scratch2Off 4 1 1 1))
          (Set.Ico (scratch3Off 4 1 1 1) (scratch3Off 4 1 1 1 + 3 * 1 * 1 * 1 * 1))
      ∧ (scratch3Off 4 1 1 1 + 3 * 1 * 1 * 1 * 1) * 4
          = getAttentionWorkspaceSize 4 1 1 1 1) :=
  ⟨Or.inr rfl, qkvToCtx_workspace_partition 4 1 1 1 1 (Or.inr rfl)⟩

/-! ## Pipeline driver status and cublas configuration state
     (attention_impl.cu lines 317 to 402)

The cublas handle carries a pointer mode and a math mode.
CublasConfigHelper captures both in its constructor, installs
CUBLAS_POINTER_MODE_HOST and CUBLAS_TENSOR_OP_MATH, and its destructor
restores the captured values; C++ runs the destructor on every exit path
of qkvToCtx.  The model threads this state explicitly.

The CUDA_CALL and CUBLAS_CALL macros come from headers outside this
excerpt.  Modelled from the spec (section 7): a failing library call is
surfaced as a non-zero status of the enclosing status-returning function.
launchTransQkv and launchTransCtx return void in the source, so a launch
failure inside them yields no status at all; the int status of
computeMaskedSoftmax is discarded at its call site (source line 366); and
qkvToCtx ends with an unconditional return 0.
-/

structure CublasState where
  pointerMode : ℕ
  mathMode : ℕ
deriving DecidableEq

def CUBLAS_POINTER_MODE_HOST : ℕ := 1

def CUBLAS_TENSOR_OP_MATH : ℕ := 1

/-- CublasConfigHelper constructor: capture the current modes, then install
the host pointer mode and tensor-op math mode.  Returns (saved, new). -/
def cublasConfigEnter (st : CublasState) : CublasState × CublasState :=
  (st, ⟨CUBLAS_POINTER_MODE_HOST, CUBLAS_TENSOR_OP_MATH⟩)

/-- CublasConfigHelper destructor: restore the captured math mode and
pointer mode. -/
def cublasConfigExit (saved _cur : CublasState) : CublasState :=
  ⟨saved.pointerMode, saved.mathMode⟩

/-- Which stages of the pipeline fail in a given execution. -/
structure StageFail where
  transQkv : Bool
  gemm1 : Bool
  softmax : Bool
  gemm2 : Bool
  transCtx : Bool
deriving DecidableEq

/-- Status of computeMaskedSoftmax: non-zero when its kernel launch failed
(under the spec-modelled error-surfacing CUDA_CALL), else 0. -/
def computeMaskedSoftmaxStatus (f : StageFail) : ℕ :=
  if f.softmax then 1 else 0

/-- Control-flow and cublas-state model of qkvToCtx: returns the final
cublas state and the returned int status.  The transform launches are void
calls; the softmax status is computed and discarded as at source line 366;
the two CUBLAS_CALL sites (spec-modelled) surface a non-zero status, with
the helper destructor running on that exit path too. -/
def qkvToCtxRun (f : StageFail) (st0 : CublasState) : CublasState × ℕ :=
  let entered := cublasConfigEnter st0
  let saved := entered.1
  let st1 := entered.2
  if f.gemm1 then (cublasConfigExit saved st1, 1)
  else
    let _softmaxStatus := computeMaskedSoftmaxStatus f
    if f.gemm2 then (cublasConfigExit saved st1, 1)
    else (cublasConfigExit saved st1, 0)

/-- Counterexample for C5: a softmax-stage launch failure is not surfaced;
qkvToCtx still returns 0 even though a stage failed, because the status of
computeMaskedSoftmax is discarded at its call site. -/
theorem qkvToCtx_swallows_softmax_failure :
    (qkvToCtxRun ⟨false, false, true, false, false⟩ ⟨0, 0⟩).2 = 0
    ∧ (⟨false, false, true, false, false⟩ : StageFail).softmax = true
    ∧ computeMaskedSoftmaxStatus ⟨false, false, true, false, false⟩ ≠ 0 := by
  refine ⟨rfl, rfl, by decide⟩

/-- C5 amended: the status qkvToCtx returns is non-zero exactly when one of
the two cublas GEMM calls fails; transform-launch and softmax-launch
failures never reach its return value. -/
theorem qkvToCtx_status_iff_gemm_failure :
    ∀ (f : StageFail) (st : CublasState),
      (qkvToCtxRun f st).2 ≠ 0 ↔ (f.gemm1 = true ∨ f.gemm2 = true) := by
  intro f st
  obtain ⟨tq, g1, sm, g2, tc⟩ := f
  cases g1 <;> cases g2 <;>
    simp [qkvToCtxRun, cublasConfigEnter, cublasConfigExit, computeMaskedSoftmaxStatus]

/-- C6: the pointer mode and math mode of the cublas handle observed after
qkvToCtx equal their values at entry, on every exit path, including the
failing ones: the helper captures them on entry and its destructor restores
them on each return. -/
theorem qkvToCtx_restores_cublas_state :
    ∀ (f : StageFail) (st0 : CublasState), (qkvToCtxRun f st0).1 = st0 := by
  intro f st0
  obtain ⟨tq, g1, sm, g2, tc⟩ := f
  cases g1 <;> cases g2 <;>
    simp [qkvToCtxRun, cublasConfigEnter, cublasConfigExit]

/-! ## RecordEvent::Compute (record.cc lines 22 to 37)

OrtEventPool::SignalEvent and CopyCpuTensor live outside this excerpt.
Modelled from the spec: SignalEvent records the id in the event pool
(modelled as the list of signalled ids), and CopyCpuTensor copies a CPU
tensor, so each output gets the shape and the contents of its source
input (the kernel allocates output i with the shape of input i+1 and
copies the data).
-/

structure TensorM where
  shape : List ℕ
  data : List ℤ
deriving DecidableEq

inductive MStatus where
  | ok
  | fail
deriving DecidableEq

/-- Modelled from the spec: CopyCpuTensor reproduces the source tensor. -/
def CopyCpuTensor (x : TensorM) : TensorM := x

/-- RecordEvent::Compute.  eventId is input 0; dataInputs are inputs 1 and
onward; outputCount is the runtime output count of the kernel context;
signaled is the event-pool state.  Returns the status, the new event-pool
state, and the outputs. -/
def recordEventCompute (eventId : ℤ) (dataInputs : List TensorM)
    (outputCount : ℕ) (signaled : List ℤ) :
    MStatus × List ℤ × List TensorM :=
  if eventId = -1 then (MStatus.fail, signaled, [])
  else
    let signaled2 := signaled ++ [eventId]
    (MStatus.ok, signaled2,
      (List.range outputCount).map
        (fun i => CopyCpuTensor (dataInputs.getD i ⟨[], []⟩)))

/-- C10: RecordEvent::Compute fails exactly when the event id is -1, in
which case it signals nothing and writes no output; otherwise it signals
the event and every output i equals data input i (input i+1 of the kernel,
same shape and contents). -/
theorem recordEventCompute_spec
    (eventId : ℤ) (dataInputs : List TensorM) (n : ℕ) (sig : List ℤ)
    (hn : n ≤ dataInputs.length) :
    ((recordEventCompute eventId dataInputs n sig).1 = MStatus.fail ↔ eventId = -1)
    ∧ (eventId = -1 →
        (recordEventCompute eventId dataInputs n sig).2.1 = sig
        ∧ (recordEventCompute eventId dataInputs n sig).2.2 = [])
    ∧ (eventId ≠ -1 →
        (recordEventCompute eventId dataInputs n sig).2.1 = sig ++ [eventId]
        ∧ (recordEventCompute eventId dataInputs n sig).2.2.length = n
        ∧ ∀ i, i < n →
            (recordEventCompute eventId dataInputs n sig).2.2.getD i ⟨[], []⟩
              = dataInputs.getD i ⟨[], []⟩) := by
  by_cases h : eventId = -1
  · refine ⟨by simp [recordEventCompute, h], fun _ => ?_, fun hne => absurd h hne⟩
    simp [recordEventCompute, h]
  · refine ⟨by simp [recordEventCompute, h], fun he => absurd he h, fun _ => ?_⟩
    refine ⟨by simp [recordEventCompute, h], by simp [recordEventCompute, h], ?_⟩
    intro i hi
    simp only [recordEventCompute, if_neg h]
    rw [List.getD_eq_getElem?_getD, List.getElem?_map, List.getElem?_range hi]
    simp [CopyCpuTensor]

/-- Witness for C10 at a concrete input. -/
theorem recordEventCompute_spec_witness :
    ((2 : ℕ) ≤ ([⟨[2], [7, 8]⟩, ⟨[1], [9]⟩] : List TensorM).length)
    ∧ (((recordEventCompute 5 [⟨[2], [7, 8]⟩, ⟨[1], [9]⟩] 2 []).1 = MStatus.fail ↔ (5 : ℤ) = -1)
      ∧ ((5 : ℤ) = -1 →
          (recordEventCompute 5 [⟨[2], [7, 8]⟩, ⟨[1], [9]⟩] 2 []).2.1 = []
          ∧ (recordEventCompute 5 [⟨[2], [7, 8]⟩, ⟨[1], [9]⟩] 2 []).2.2 = [])
      ∧ ((5 : ℤ) ≠ -1 →
          (recordEventCompute 5 [⟨[2], [7, 8]⟩, ⟨[1], [9]⟩] 2 []).2.1 = [] ++ [(5 : ℤ)]
          ∧ (recordEventCompute 5 [⟨[2], [7, 8]⟩, ⟨[1], [9]⟩] 2 []).2.2.length = 2
          ∧ ∀ i, i < 2 →
              (recordEventCompute 5 [⟨[2], [7, 8]⟩, ⟨[1], [9]⟩] 2 []).2.2.getD i ⟨[], []⟩
                = ([⟨[2], [7, 8]⟩, ⟨[1], [9]⟩] : List TensorM).getD i ⟨[], []⟩)) :=
  ⟨by decide, recordEventCompute_spec 5 [⟨[2], [7, 8]⟩, ⟨[1], [9]⟩] 2 [] (by decide)⟩

/-! ## Layout transform kernels (attention_impl.cu lines 177 to 299)

transposeQKV: one thread per (matrix m, batch b, sequence position s,
head n, head-dim index i) copies input[in_offset + i] to
output[out_offset + i], taking layout [B, S, 3, N, H] to [3, B, N, S, H].
transposeCtx does the same from [B, N, S, H] to [B, S, N, H].
The offset formulas below are the source formulas verbatim; the functional
transforms decode the flat output index along the output layout and read
the corresponding input element, which the bijectivity theorem justifies.
The vectorized float2/half2 launch paths instantiate the same generic
kernel at a packed element type, so the element type stays abstract.
-/

def ctxInOffset (S N H b s n : ℕ) : ℕ :=
  s * H + n * S * H + b * (N * H * S)

def ctxOutOffset (S N H b s n : ℕ) : ℕ :=
  n * H + s * (N * H) + b * (N * H * S)

def qkvInOffset (S N H b s m n : ℕ) : ℕ :=
  n * H + m * (N * H) + s * 3 * (N * H) + b * (N * H * S) * 3

def qkvOutOffset (B S N H b s m n : ℕ) : ℕ :=
  s * H + n * S * H + b * (N * H * S) + m * (N * H * S) * B

/-- The tensor written by the transposeCtx grid, as a function of the flat
output index (layout [B, S, N, H]). -/
def transposeCtxFun {α : Type} (B S N H : ℕ) (inp : ℕ → α) : ℕ → α := fun o =>
  let NH := N * H
  let NHS := NH * S
  let b := o / NHS
  let r := o % NHS
  let s := r / NH
  let r2 := r % NH
  let n := r2 / H
  let i := r2 % H
  inp (ctxInOffset S N H b s n + i)

/-- The tensor written by the transposeQKV grid, as a function of the flat
output index (layout [3, B, N, S, H]). -/
def transposeQKVfun {α : Type} (B S N H : ℕ) (inp : ℕ → α) : ℕ → α := fun o =>
  let NH := N * H
  let NHS := NH * S
  let SH := S * H
  let m := o / (NHS * B)
  let r := o % (NHS * B)
  let b := r / NHS
  let r2 := r % NHS
  let n := r2 / SH
  let r3 := r2 % SH
  let s := r3 / H
  let i := r3 % H
  inp (qkvInOffset S N H b s m n + i)

lemma div_mul_add {k x y : ℕ} (h : y < k) : (k * x + y) / k = x := by
  rw [Nat.mul_add_div (by omega)]
  rw [Nat.div_eq_of_lt h]
  omega

lemma mod_mul_add {k x y : ℕ} (h : y < k) : (k * x + y) % k = y := by
  rw [Nat.mul_add_mod]
  exact Nat.mod_eq_of_lt h

lemma encode_bound {k a A r : ℕ} (ha : a < A) (hr : r < k) : k * a + r < k * A :=
  calc k * a + r < k * a + k := by omega
    _ = k * (a + 1) := by ring
    _ ≤ k * A := Nat.mul_le_mul_left k ha

lemma mul_pos_left_nat {a b : ℕ} (h : 0 < a * b) : 0 < a := by
  rcases Nat.eq_zero_or_pos a with h0 | h0
  · rw [h0, Nat.zero_mul] at h
    exact absurd h (lt_irrefl 0)
  · exact h0

lemma mul_pos_right_nat {a b : ℕ} (h : 0 < a * b) : 0 < b := by
  rcases Nat.eq_zero_or_pos b with h0 | h0
  · rw [h0, Nat.mul_zero] at h
    exact absurd h (lt_irrefl 0)
  · exact h0

lemma ctx_decode_arith (S N H b s n i : ℕ)
    (hs : s < S) (hn : n < N) (hi : i < H) :
    (ctxOutOffset S N H b s n + i) / (N * H * S) = b
    ∧ (ctxOutOffset S N H b s n + i) % (N * H * S) / (N * H) = s
    ∧ (ctxOutOffset S N H b s n + i) % (N * H * S) % (N * H) / H = n
    ∧ (ctxOutOffset S N H b s n + i) % (N * H * S) % (N * H) % H = i := by
  have hin1 : H * n + i < N * H :=
    lt_of_lt_of_eq (encode_bound hn hi) (Nat.mul_comm H N)
  have hin2 : N * H * s + (H * n + i) < N * H * S := encode_bound hs hin1
  have key : ctxOutOffset S N H b s n + i
      = N * H * S * b + (N * H * s + (H * n + i)) := by
    unfold ctxOutOffset; ring
  rw [key, div_mul_add hin2, mod_mul_add hin2, div_mul_add hin1, mod_mul_add hin1,
    div_mul_add hi, mod_mul_add hi]
  exact ⟨rfl, rfl, rfl, rfl⟩

lemma qkv_decode_arith (B S N H b s m n i : ℕ)
    (hb : b < B) (hs : s < S) (hn : n < N) (hi : i < H) :
    (qkvOutOffset B S N H b s m n + i) / (N * H * S * B) = m
    ∧ (qkvOutOffset B S N H b s m n + i) % (N * H * S * B) / (N * H * S) = b
    ∧ (qkvOutOffset B S N H b s m n + i) % (N * H * S * B) % (N * H * S) / (S * H) = n
    ∧ (qkvOutOffset B S N H b s m n + i) % (N * H * S * B) % (N * H * S) % (S * H) / H = s
    ∧ (qkvOutOffset B S N H b s m n + i) % (N * H * S * B) % (N * H * S) % (S * H) % H = i := by
  have hin1 : H * s + i < S * H :=
    lt_of_lt_of_eq (encode_bound hs hi) (Nat.mul_comm H S)
  have hin2 : S * H * n + (H * s + i) < N * H * S :=
    lt_of_lt_of_eq (encode_bound hn hin1) (by ring)
  have hin3 : N * H * S * b + (S * H * n + (H * s + i)) < N * H * S * B :=
    encode_bound hb hin2
  have key : qkvOutOffset B S N H b s m n + i
      = N * H * S * B * m + (N * H * S * b + (S * H * n + (H * s + i))) := by
    unfold qkvOutOffset; ring
  rw [key, div_mul_add hin3, mod_mul_add hin3, div_mul_add hin2, mod_mul_add hin2,
    div_mul_add hin1, mod_mul_add hin1, div_mul_add hi, mod_mul_add hi]
  exact ⟨rfl, rfl, rfl, rfl, rfl⟩

lemma transposeQKVfun_write {α : Type} (B S N H : ℕ) (inp : ℕ → α)
    (b s m n i : ℕ) (hb : b < B) (hs : s < S) (hn : n < N) (hi : i < H) :
    transposeQKVfun B S N H inp (qkvOutOffset B S N H b s m n + i)
      = inp (qkvInOffset S N H b s m n + i) := by
  obtain ⟨h1, h2, h3, h4, h5⟩ := qkv_decode_arith B S N H b s m n i hb hs hn hi
  simp only [transposeQKVfun]
  rw [h1, h2, h3, h4, h5]

lemma transposeCtxFun_write {α : Type} (B S N H : ℕ) (inp : ℕ → α)
    (b s n i : ℕ) (hs : s < S) (hn : n < N) (hi : i < H) :
    transposeCtxFun B S N H inp (ctxOutOffset S N H b s n + i)
      = inp (ctxInOffset S N H b s n + i) := by
  obtain ⟨h1, h2, h3, h4⟩ := ctx_decode_arith S N H b s n i hs hn hi
  simp only [transposeCtxFun]
  rw [h1, h2, h3, h4]

/-- C7: the QKV transform is a bijection from layout [B, S, 3, N, H] onto
[3, B, N, S, H] and the context transform is a bijection from [B, N, S, H]
onto [B, S, N, H]: each per-thread write maps the output offsets injectively
onto the whole flat output range (every output element written exactly
once), and per matrix m the context transform inverts the QKV transform,
so the round trip reproduces the original tensor bit-exactly. -/
theorem transpose_bijections_and_roundtrip (B S N H : ℕ) :
    (∀ {α : Type} (inp : ℕ → α) (b s m n i : ℕ),
        b < B → s < S → m < 3 → n < N → i < H →
        transposeQKVfun B S N H inp (qkvOutOffset B S N H b s m n + i)
          = inp (qkvInOffset S N H b s m n + i))
    ∧ (∀ b s m n i b2 s2 m2 n2 i2 : ℕ,
        b < B → s < S → n < N → i < H →
        b2 < B → s2 < S → n2 < N → i2 < H →
        qkvOutOffset B S N H b s m n + i = qkvOutOffset B S N H b2 s2 m2 n2 + i2 →
        b = b2 ∧ s = s2 ∧ m = m2 ∧ n = n2 ∧ i = i2)
    ∧ (∀ o : ℕ, o < 3 * B * N * S * H →
        ∃ b s m n i : ℕ, b < B ∧ s < S ∧ m < 3 ∧ n < N ∧ i < H
          ∧ qkvOutOffset B S N H b s m n + i = o)
    ∧ (∀ {α : Type} (inp : ℕ → α) (b s n i : ℕ),
        s < S → n < N → i < H →
        transposeCtxFun B S N H inp (ctxOutOffset S N H b s n + i)
          = inp (ctxInOffset S N H b s n + i))
    ∧ (∀ b s n i b2 s2 n2 i2 : ℕ,
        s < S → n < N → i < H → s2 < S → n2 < N → i2 < H →
        ctxOutOffset S N H b s n + i = ctxOutOffset S N H b2 s2 n2 + i2 →
        b = b2 ∧ s = s2 ∧ n = n2 ∧ i = i2)
    ∧ (∀ o : ℕ, o < B * N * S * H →
        ∃ b s n i : ℕ, b < B ∧ s < S ∧ n < N ∧ i < H
          ∧ ctxOutOffset S N H b s n + i = o)
    ∧ (∀ {α : Type} (inp : ℕ → α) (b s m n i : ℕ),
        b < B → s < S → m < 3 → n < N → i < H →
        transposeCtxFun B S N H
            (fun p => transposeQKVfun B S N H inp (m * (B * N * (S * H)) + p))
            (ctxOutOffset S N H b s n + i)
          = inp (qkvInOffset S N H b s m n + i)) := by
  refine ⟨?_, ?_, ?_, ?_, ?_, ?_, ?_⟩
  · intro α inp b s m n i hb hs _hm hn hi
    exact transposeQKVfun_write B S N H inp b s m n i hb hs hn hi
  · intro b s m n i b2 s2 m2 n2 i2 hb hs hn hi hb2 hs2 hn2 hi2 heq
    obtain ⟨d1, d2, d3, d4, d5⟩ := qkv_decode_arith B S N H b s m n i hb hs hn hi
    obtain ⟨e1, e2, e3, e4, e5⟩ := qkv_decode_arith B S N H b2 s2 m2 n2 i2 hb2 hs2 hn2 hi2
    rw [heq] at d1 d2 d3 d4 d5
    exact ⟨d2.symm.trans e2, d4.symm.trans e4, d1.symm.trans e1,
      d3.symm.trans e3, d5.symm.trans e5⟩
  · intro o ho
    have hkey : 3 * B * N * S * H = 3 * (N * H * S * B) := by ring
    rw [hkey] at ho
    have hK : 0 < N * H * S * B := by
      rcases Nat.eq_zero_or_pos (N * H * S * B) with h0 | h0
      · rw [h0] at ho; omega
      · exact h0
    have hNHS : 0 < N * H * S := mul_pos_left_nat hK
    have hNH : 0 < N * H := mul_pos_left_nat hNHS
    have hH : 0 < H := mul_pos_right_nat hNH
    have hN : 0 < N := mul_pos_left_nat hNH
    have hS : 0 < S := mul_pos_right_nat hNHS
    have hSH : 0 < S * H := Nat.mul_pos hS hH
    refine ⟨o % (N * H * S * B) / (N * H * S),
            o % (N * H * S * B) % (N * H * S) % (S * H) / H,
            o / (N * H * S * B),
            o % (N * H * S * B) % (N * H * S) / (S * H),
            o % (N * H * S * B) % (N * H * S) % (S * H) % H,
            ?_, ?_, ?_, ?_, ?_, ?_⟩
    · exact (Nat.div_lt_iff_lt_mul hNHS).mpr
        (lt_of_lt_of_eq (Nat.mod_lt _ hK) (by ring))
    · exact (Nat.div_lt_iff_lt_mul hH).mpr (Nat.mod_lt _ hSH)
    · exact (Nat.div_lt_iff_lt_mul hK).mpr ho
    · exact (Nat.div_lt_iff_lt_mul hSH).mpr
        (lt_of_lt_of_eq (Nat.mod_lt _ hNHS) (by ring))
    · exact Nat.mod_lt _ hH
    · have e1 : N * H * S * B * (o / (N * H * S * B)) + o % (N * H * S * B) = o :=
        Nat.div_add_mod o (N * H * S * B)
      have e2 : N * H * S * (o % (N * H * S * B) / (N * H * S))
          + o % (N * H * S * B) % (N * H * S) = o % (N * H * S * B) :=
        Nat.div_add_mod _ _
      have e3 : S * H * (o % (N * H * S * B) % (N * H * S) / (S * H))
          + o % (N * H * S * B) % (N * H * S) % (S * H)
          = o % (N * H * S * B) % (N * H * S) :=
        Nat.div_add_mod _ _
      have e4 : H * (o % (N * H * S * B) % (N * H * S) % (S * H) / H)
          + o % (N * H * S * B) % (N * H * S) % (S * H) % H
          = o % (N * H * S * B) % (N * H * S) % (S * H) :=
        Nat.div_add_mod _ _
      have key : qkvOutOffset B S N H (o % (N * H * S * B) / (N * H * S))
            (o % (N * H * S * B) % (N * H * S) % (S * H) / H)
            (o / (N * H * S * B))
            (o % (N * H * S * B) % (N * H * S) / (S * H))
            + o % (N * H * S * B) % (N * H * S) % (S * H) % H
          = N * H * S * B * (o / (N * H * S * B))
            + (N * H * S * (o % (N * H * S * B) / (N * H * S))
              + (S * H * (o % (N * H * S * B) % (N * H * S) / (S * H))
                + (H * (o % (N * H * S * B) % (N * H * S) % (S * H) / H)
                  + o % (N * H * S * B) % (N * H * S) % (S * H) % H))) := by
        unfold qkvOutOffset; ring
      rw [key, e4, e3, e2]
      exact e1
  · intro α inp b s n i hs hn hi
    exact transposeCtxFun_write B S N H inp b s n i hs hn hi
  · intro b s n i b2 s2 n2 i2 hs hn hi hs2 hn2 hi2 heq
    obtain ⟨d1, d2, d3, d4⟩ := ctx_decode_arith S N H b s n i hs hn hi
    obtain ⟨e1, e2, e3, e4⟩ := ctx_decode_arith S N H b2 s2 n2 i2 hs2 hn2 hi2
    rw [heq] at d1 d2 d3 d4
    exact ⟨d1.symm.trans e1, d2.symm.trans e2, d3.symm.trans e3, d4.symm.trans e4⟩
  · intro o ho
    have hkey : B * N * S * H = B * (N * H * S) := by ring
    rw [hkey] at ho
    have hK : 0 < N * H * S := by
      rcases Nat.eq_zero_or_pos (N * H * S) with h0 | h0
      · rw [h0] at ho; omega
      · exact h0
    have hNH : 0 < N * H := mul_pos_left_nat hK
    have hH : 0 < H := mul_pos_right_nat hNH
    have hN : 0 < N := mul_pos_left_nat hNH
    have hS : 0 < S := mul_pos_right_nat hK
    refine ⟨o / (N * H * S),
            o % (N * H * S) / (N * H),
            o % (N * H * S) % (N * H) / H,
            o % (N * H * S) % (N * H) % H,
            ?_, ?_, ?_, ?_, ?_⟩
    · exact (Nat.div_lt_iff_lt_mul hK).mpr ho
    · exact (Nat.div_lt_iff_lt_mul hNH).mpr
        (lt_of_lt_of_eq (Nat.mod_lt _ hK) (by ring))
    · exact (Nat.div_lt_iff_lt_mul hH).mpr (Nat.mod_lt _ hNH)
    · exact Nat.mod_lt _ hH
    · have e1 : N * H * S * (o / (N * H * S)) + o % (N * H * S) = o :=
        Nat.div_add_mod o (N * H * S)
      have e2 : N * H * (o % (N * H * S) / (N * H)) + o % (N * H * S) % (N * H)
          = o % (N * H * S) := Nat.div_add_mod _ _
      have e3 : H * (o % (N * H * S) % (N * H) / H) + o % (N * H * S) % (N * H) % H
          = o % (N * H * S) % (N * H) := Nat.div_add_mod _ _
      have key : ctxOutOffset S N H (o / (N * H * S))
            (o % (N * H * S) / (N * H))
            (o % (N * H * S) % (N * H) / H)
            + o % (N * H * S) % (N * H) % H
          = N * H * S * (o / (N * H * S))
            + (N * H * (o % (N * H * S) / (N * H))
              + (H * (o % (N * H * S) % (N * H) / H)
                + o % (N * H * S) % (N * H) % H)) := by
        unfold ctxOutOffset; ring
      rw [key, e3, e2]
      exact e1
  · intro α inp b s m n i hb hs _hm hn hi
    rw [transposeCtxFun_write B S N H _ b s n i hs hn hi]
    have harr : m * (B * N * (S * H)) + (ctxInOffset S N H b s n + i)
        = qkvOutOffset B S N H b s m n + i := by
      unfold ctxInOffset qkvOutOffset; ring
    rw [harr]
    exact transposeQKVfun_write B S N H inp b s m n i hb hs hn hi

/-- Witness for C7 at a concrete input: round trip through matrix m = 2 of
a [1, 2, 3, 1, 2] packed tensor. -/
theorem transpose_bijections_witness :
    ((0 : ℕ) < 1 ∧ (1 : ℕ) < 2 ∧ (2 : ℕ) < 3 ∧ (0 : ℕ) < 1 ∧ (1 : ℕ) < 2)
    ∧ transposeCtxFun 1 2 1 2
        (fun p => transposeQKVfun 1 2 1 2 (fun j => (j : ℤ)) (2 * (1 * 1 * (2 * 2)) + p))
        (ctxOutOffset 2 1 2 0 1 0 + 1)
      = (fun j => (j : ℤ)) (qkvInOffset 2 1 2 0 1 2 0 + 1) :=
  ⟨by omega,
   (transpose_bijections_and_roundtrip 1 2 1 2).2.2.2.2.2.2
     (fun j => (j : ℤ)) 0 1 2 0 1 (by omega) (by omega) (by omega) (by omega) (by omega)⟩

/-! ## Masked softmax (attention_impl.cu lines 55 to 174)

Float values are modelled by FV: exact rationals for finite floats, plus
the IEEE special values reachable here.  A row is addressed by
(blockIdx.y, blockIdx.x) = (batch, head * S + query position); the kernels
below are stated at row level, with the mask entry mask_index[blockIdx.y]
passed in as an integer.  last_valid = min(sequence_length, mask entry) is
an int in the source and is kept as an integer in the model.  The general
kernel compares it against a signed int loop index i, so for i >= 0 the
loop bound agrees with last_valid.toNat; the small kernel instead compares
the unsigned threadIdx.x against the int last_valid, which converts the
int to unsigned (uintOfInt below), so a negative last_valid makes every
thread of the block treat its position as valid.
out0 is the content of the output row before the kernel runs (positions
the kernel does not write keep it). -/

inductive FV where
  | fin (q : ℚ)
  | inf
  | neginf
  | nan
deriving DecidableEq

def FV.isFinite : FV → Bool
  | FV.fin _ => true
  | _ => false

/-- IEEE multiplication on the modelled values. -/
def FV.mul : FV → FV → FV
  | FV.nan, _ => FV.nan
  | _, FV.nan => FV.nan
  | FV.fin a, FV.fin b => FV.fin (a * b)
  | FV.fin a, FV.inf => if a = 0 then FV.nan else if 0 < a then FV.inf else FV.neginf
  | FV.inf, FV.fin a => if a = 0 then FV.nan else if 0 < a then FV.inf else FV.neginf
  | FV.fin a, FV.neginf => if a = 0 then FV.nan else if 0 < a then FV.neginf else FV.inf
  | FV.neginf, FV.fin a => if a = 0 then FV.nan else if 0 < a then FV.neginf else FV.inf
  | FV.inf, FV.inf => FV.inf
  | FV.inf, FV.neginf => FV.neginf
  | FV.neginf, FV.inf => FV.neginf
  | FV.neginf, FV.neginf => FV.inf

/-- IEEE reciprocal: 1.f / z, with 1 / (+0) = +inf. -/
def FV.inv : FV → FV
  | FV.fin a => if a = 0 then FV.inf else FV.fin a⁻¹
  | FV.inf => FV.fin 0
  | FV.neginf => FV.fin 0
  | FV.nan => FV.nan

/-- IEEE division, used by the spec-worded reference algorithm. -/
def FV.div : FV → FV → FV
  | FV.nan, _ => FV.nan
  | _, FV.nan => FV.nan
  | FV.fin a, FV.fin b =>
      if b = 0 then (if a = 0 then FV.nan else if 0 < a then FV.inf else FV.neginf)
      else FV.fin (a / b)
  | FV.fin _, FV.inf => FV.fin 0
  | FV.fin _, FV.neginf => FV.fin 0
  | FV.inf, FV.fin b => if 0 ≤ b then FV.inf else FV.neginf
  | FV.neginf, FV.fin b => if 0 ≤ b then FV.neginf else FV.inf
  | FV.inf, FV.inf => FV.nan
  | FV.inf, FV.neginf => FV.nan
  | FV.neginf, FV.inf => FV.nan
  | FV.neginf, FV.neginf => FV.nan

/-- The strided accumulation loop of one thread of the general softmax:
for (i = threadIdx.x; i < bound; i += tpb) acc += f i. -/
def stridedSum (tpb : ℕ+) (bound : ℕ) (f : ℕ → ℚ) (i : ℕ) : ℚ :=
  if h : i < bound then f i + stridedSum tpb bound f (i + tpb) else 0
termination_by bound - i
decreasing_by
  have := tpb.pos
  omega

/-- The general softmax device function (source lines 55 to 86) on one row:
tpb threads accumulate strided partial sums of expf over the entries below
lastValid (the loop index i is a signed int, so for i >= 0 the loop bound
agrees with lastValid.toNat), BlockReduce adds them into z, thread 0
broadcasts reverse_z = 1.f / z, and the write loop stores
expf(input i) * reverse_z when i < lastValid (signed int comparison) and
the literal 0 for the other i < ld. -/
def softmax (E : ℚ → ℚ) (tpb : ℕ+) (ld : ℕ) (lastValid : ℤ)
    (input : ℕ → ℚ) (out0 : ℕ → FV) : ℕ → FV :=
  let z : ℚ := ∑ t in Finset.range (tpb : ℕ),
    stridedSum tpb lastValid.toNat (fun k => E (input k)) t
  let rz : FV := FV.inv (FV.fin z)
  fun i => if i < ld then
    (if (i : ℤ) < lastValid then FV.mul (FV.fin (E (input i))) rz else FV.fin 0)
  else out0 i

/-- The int-to-unsigned reinterpretation performed by the comparison
threadIdx.x < last_valid in softmaxSmall: threadIdx.x is unsigned, so the
int last_valid converts to unsigned, and a negative value compares as
2^32 + value.  Int values lie in the interval from -2^31 to 2^31 - 1,
on which this equals the value taken mod 2^32. -/
def uintOfInt (v : ℤ) : ℤ := if v < 0 then v + 2 ^ 32 else v

/-- The small softmax device function (source lines 88 to 119) on one row:
one thread per position; thread_data = expf(input t) when the unsigned
comparison t < last_valid holds (for every thread of the block when
last_valid is negative) and 0 otherwise; BlockReduce adds the tpb values
into z, and each thread t < ld stores thread_data * reverse_z. -/
def softmaxSmall (E : ℚ → ℚ) (tpb : ℕ+) (ld : ℕ) (lastValid : ℤ)
    (input : ℕ → ℚ) (out0 : ℕ → FV) : ℕ → FV :=
  let td : ℕ → ℚ := fun t => if (t : ℤ) < uintOfInt lastValid then E (input t) else 0
  let z : ℚ := ∑ t in Finset.range (tpb : ℕ), td t
  let rz : FV := FV.inv (FV.fin z)
  fun t => if t < (tpb : ℕ) ∧ t < ld then FV.mul (FV.fin (td t)) rz else out0 t

/-- maskedSoftmaxKernelSmall on one row: last_valid = min(S, mask entry),
an int. -/
def maskedSoftmaxKernelSmall (E : ℚ → ℚ) (tpb : ℕ+) (sequenceLength : ℕ)
    (maskEntry : ℤ) (input : ℕ → ℚ) (out0 : ℕ → FV) : ℕ → FV :=
  softmaxSmall E tpb sequenceLength
    (min (sequenceLength : ℤ) maskEntry) input out0

/-- maskedSoftmaxKernel on one row: last_valid = min(S, mask entry),
an int. -/
def maskedSoftmaxKernel (E : ℚ → ℚ) (tpb : ℕ+) (sequenceLength : ℕ)
    (maskEntry : ℤ) (input : ℕ → ℚ) (out0 : ℕ → FV) : ℕ → FV :=
  softmax E tpb sequenceLength
    (min (sequenceLength : ℤ) maskEntry) input out0

/-- computeMaskedSoftmax (source lines 146 to 174) on one row: dispatch on
the sequence length to a small-kernel block size of 32, 128 or 384, or to
the general kernel with block size 256. -/
def computeMaskedSoftmax (E : ℚ → ℚ) (sequenceLength : ℕ) (maskEntry : ℤ)
    (input : ℕ → ℚ) (out0 : ℕ → FV) : ℕ → FV :=
  if sequenceLength ≤ 32 then
    maskedSoftmaxKernelSmall E 32 sequenceLength maskEntry input out0
  else if sequenceLength ≤ 128 then
    maskedSoftmaxKernelSmall E 128 sequenceLength maskEntry input out0
  else if sequenceLength = 384 then
    maskedSoftmaxKernelSmall E 384 sequenceLength maskEntry input out0
  else
    maskedSoftmaxKernel E 256 sequenceLength maskEntry input out0

/-- The single unoptimized masked-softmax algorithm, written from the spec
words (section 4.3): per row let L = min(S, mask entry); Z is the sum of
expf(score j) over j < L; the output is expf(score j) / Z for j < L and 0
for L <= j < S. -/
def maskedSoftmaxUnopt (E : ℚ → ℚ) (sequenceLength : ℕ) (maskEntry : ℤ)
    (input : ℕ → ℚ) (out0 : ℕ → FV) : ℕ → FV :=
  let L : ℕ := (min (sequenceLength : ℤ) maskEntry).toNat
  let Z : ℚ := ∑ j in Finset.range L, E (input j)
  fun j => if j < sequenceLength then
    (if j < L then FV.div (FV.fin (E (input j))) (FV.fin Z) else FV.fin 0)
  else out0 j

lemma stridedSum_of_le (tpb : ℕ+) (bound : ℕ) (f : ℕ → ℚ) (i : ℕ)
    (h : bound ≤ i) : stridedSum tpb bound f i = 0 := by
  rw [stridedSum]
  rw [dif_neg (by omega)]

lemma dvd_window (d L i : ℕ) (hd : 0 < d) (hi : i < L) :
    (i + d ≤ L ∧ d ∣ (L - (i + d))) ↔ (i ≤ L ∧ d ∣ (L - i)) := by
  constructor
  · rintro ⟨h1, h2⟩
    refine ⟨by omega, ?_⟩
    have h3 : L - i = (L - (i + d)) + d := by omega
    rw [h3]
    exact dvd_add h2 dvd_rfl
  · rintro ⟨h1, h2⟩
    have h3 : d ≤ L - i := Nat.le_of_dvd (by omega) h2
    refine ⟨by omega, ?_⟩
    have h4 : L - (i + d) = (L - i) - d := by omega
    rw [h4]
    exact Nat.dvd_sub' h2 dvd_rfl

lemma stridedSum_succ_base (tpb : ℕ+) (f : ℕ → ℚ) (L i : ℕ) (h : L ≤ i) :
    stridedSum tpb (L + 1) f i
      = stridedSum tpb L f i
        + (if i ≤ L ∧ (tpb : ℕ) ∣ (L - i) then f L else 0) := by
  rcases eq_or_lt_of_le h with rfl | hlt
  · have hL1 : stridedSum tpb (L + 1) f L = f L := by
      rw [stridedSum]
      rw [dif_pos (by omega : L < L + 1)]
      rw [stridedSum_of_le tpb (L + 1) f (L + (tpb : ℕ)) (by have := tpb.pos; omega)]
      ring
    have hL2 : stridedSum tpb L f L = 0 := stridedSum_of_le tpb L f L le_rfl
    rw [hL1, hL2, if_pos ⟨le_rfl, by simp⟩]
    ring
  · rw [stridedSum_of_le tpb (L + 1) f i (by omega),
      stridedSum_of_le tpb L f i (by omega),
      if_neg (by rintro ⟨h1, _⟩; omega)]
    ring

lemma stridedSum_succ (tpb : ℕ+) (f : ℕ → ℚ) (L : ℕ) :
    ∀ i, stridedSum tpb (L + 1) f i
      = stridedSum tpb L f i
        + (if i ≤ L ∧ (tpb : ℕ) ∣ (L - i) then f L else 0) := by
  have main : ∀ k i, L - i ≤ k →
      stridedSum tpb (L + 1) f i
        = stridedSum tpb L f i
          + (if i ≤ L ∧ (tpb : ℕ) ∣ (L - i) then f L else 0) := by
    intro k
    induction k with
    | zero =>
      intro i hi
      exact stridedSum_succ_base tpb f L i (by omega)
    | succ k IH =>
      intro i hi
      by_cases hiL : i < L
      · have htp := tpb.pos
        have h1 : stridedSum tpb (L + 1) f i
            = f i + stridedSum tpb (L + 1) f (i + (tpb : ℕ)) := by
          rw [stridedSum]
          rw [dif_pos (by omega : i < L + 1)]
        have h2 : stridedSum tpb L f i
            = f i + stridedSum tpb L f (i + (tpb : ℕ)) := by
          rw [stridedSum]
          rw [dif_pos hiL]
        have h3 := IH (i + (tpb : ℕ)) (by omega)
        rw [h1, h2, h3]
        have hcond := dvd_window (tpb : ℕ) L i htp hiL
        by_cases hc : i ≤ L ∧ (tpb : ℕ) ∣ (L - i)
        · rw [if_pos hc, if_pos (hcond.mpr hc)]
          ring
        · rw [if_neg hc, if_neg (fun hcc => hc (hcond.mp hcc))]
          ring
      · exact stridedSum_succ_base tpb f L i (by omega)
  intro i
  exact main (L - i) i le_rfl

/-- The tpb per-thread strided sums reduce to the plain row sum: the
BlockReduce of the general softmax computes the sum of f over the first
L entries. -/
lemma stridedSum_partition (tpb : ℕ+) (f : ℕ → ℚ) :
    ∀ L, ∑ t in Finset.range (tpb : ℕ), stridedSum tpb L f t
      = ∑ j in Finset.range L, f j := by
  intro L
  induction L with
  | zero =>
    simp [stridedSum_of_le]
  | succ L IH =>
    have hd := tpb.pos
    have hstep : ∀ t ∈ Finset.range (tpb : ℕ),
        stridedSum tpb (L + 1) f t
          = stridedSum tpb L f t
            + (if t ≤ L ∧ (tpb : ℕ) ∣ (L - t) then f L else 0) :=
      fun t _ => stridedSum_succ tpb f L t
    rw [Finset.sum_congr rfl hstep, Finset.sum_add_distrib, IH,
      Finset.sum_range_succ]
    congr 1
    have hiff : ∀ t ∈ Finset.range (tpb : ℕ),
        (if t ≤ L ∧ (tpb : ℕ) ∣ (L - t) then f L else 0)
          = (if t = L % (tpb : ℕ) then f L else 0) := by
      intro t ht
      simp only [Finset.mem_range] at ht
      by_cases hc : t ≤ L ∧ (tpb : ℕ) ∣ (L - t)
      · have h1 := hc.1
        obtain ⟨c, hc2⟩ := hc.2
        have hL : L = t + (tpb : ℕ) * c := by
          have h3 : L = t + (L - t) := by omega
          rw [hc2] at h3
          exact h3
        have ht2 : t = L % (tpb : ℕ) := by
          rw [hL, Nat.add_mul_mod_self_left]
          exact (Nat.mod_eq_of_lt ht).symm
        rw [if_pos hc, if_pos ht2]
      · have ht2 : ¬ t = L % (tpb : ℕ) := by
          intro he
          apply hc
          subst he
          exact ⟨Nat.mod_le L _,
            L / (tpb : ℕ), Nat.sub_eq_of_eq_add ((Nat.div_add_mod L (tpb : ℕ)).symm)⟩
        rw [if_neg hc, if_neg ht2]
    rw [Finset.sum_congr rfl hiff,
      Finset.sum_ite_eq' (Finset.range (tpb : ℕ)) (L % (tpb : ℕ)) (fun _ => f L),
      if_pos (Finset.mem_range.mpr (Nat.mod_lt L hd))]

lemma sum_ite_range_le (g : ℕ → ℚ) (L T : ℕ) (h : L ≤ T) :
    ∑ t in Finset.range T, (if t < L then g t else 0)
      = ∑ j in Finset.range L, g j := by
  have h1 : ∑ t in Finset.range L, (if t < L then g t else 0)
      = ∑ t in Finset.range T, (if t < L then g t else 0) :=
    Finset.sum_subset (Finset.range_subset.mpr h) (by
      intro x hx hnx
      simp only [Finset.mem_range] at hx hnx
      rw [if_neg (by omega)])
  rw [← h1]
  apply Finset.sum_congr rfl
  intro t ht
  rw [if_pos (Finset.mem_range.mp ht)]

lemma sumE_pos (E : ℚ → ℚ) (input : ℕ → ℚ) (hE : ∀ q, 0 < E q)
    (L : ℕ) (hL : 0 < L) : 0 < ∑ i in Finset.range L, E (input i) :=
  Finset.sum_pos (fun i _ => hE _) (Finset.nonempty_range_iff.mpr (by omega))

/-- What the general softmax writes at a position of its row when the row
sum of exponentials is non-zero. -/
lemma softmax_apply (E : ℚ → ℚ) (tpb : ℕ+) (ld : ℕ) (lastValid : ℤ)
    (input : ℕ → ℚ) (out0 : ℕ → FV) (j : ℕ) (hj : j < ld)
    (hZ : (∑ i in Finset.range lastValid.toNat, E (input i)) ≠ 0) :
    softmax E tpb ld lastValid input out0 j
      = if j < lastValid.toNat
        then FV.fin (E (input j) / ∑ i in Finset.range lastValid.toNat, E (input i))
        else FV.fin 0 := by
  simp only [softmax]
  have hz : (∑ t in Finset.range (tpb : ℕ),
      stridedSum tpb lastValid.toNat (fun k => E (input k)) t)
      = ∑ i in Finset.range lastValid.toNat, E (input i) :=
    stridedSum_partition tpb (fun k => E (input k)) lastValid.toNat
  rw [hz, if_pos hj]
  by_cases hjL : j < lastValid.toNat
  · rw [if_pos (show (j : ℤ) < lastValid by omega), if_pos hjL]
    simp only [FV.inv, if_neg hZ, FV.mul]
    rw [div_eq_mul_inv]
  · rw [if_neg (show ¬ (j : ℤ) < lastValid by omega), if_neg hjL]

/-- What the small softmax writes at a position of its row when last_valid
is non-negative (so the unsigned comparison agrees with the signed one),
the row sum of exponentials is non-zero and the row fits in the thread
block. -/
lemma softmaxSmall_apply (E : ℚ → ℚ) (tpb : ℕ+) (ld : ℕ) (lastValid : ℤ)
    (input : ℕ → ℚ) (out0 : ℕ → FV) (j : ℕ)
    (hj : j < ld) (hjt : j < (tpb : ℕ)) (hL0 : 0 ≤ lastValid)
    (hLt : lastValid.toNat ≤ (tpb : ℕ))
    (hZ : (∑ i in Finset.range lastValid.toNat, E (input i)) ≠ 0) :
    softmaxSmall E tpb ld lastValid input out0 j
      = if j < lastValid.toNat
        then FV.fin (E (input j) / ∑ i in Finset.range lastValid.toNat, E (input i))
        else FV.fin 0 := by
  simp only [softmaxSmall]
  have hui : uintOfInt lastValid = lastValid := by
    unfold uintOfInt
    rw [if_neg (by omega)]
  rw [hui]
  have hguard : ∀ t : ℕ, ((t : ℤ) < lastValid) = (t < lastValid.toNat) :=
    fun t => propext (by omega)
  simp only [hguard]
  have hz : (∑ t in Finset.range (tpb : ℕ),
      (if t < lastValid.toNat then E (input t) else 0))
      = ∑ i in Finset.range lastValid.toNat, E (input i) :=
    sum_ite_range_le _ _ _ hLt
  rw [hz, if_pos (⟨hjt, hj⟩ : j < (tpb : ℕ) ∧ j < ld)]
  by_cases hjL : j < lastValid.toNat
  · rw [if_pos hjL, if_pos hjL]
    simp only [FV.inv, if_neg hZ, FV.mul]
    rw [div_eq_mul_inv]
  · rw [if_neg hjL, if_neg hjL]
    simp only [FV.inv, if_neg hZ, FV.mul]
    rw [zero_mul]

lemma maskedSoftmaxKernelSmall_apply (E : ℚ → ℚ) (tpb : ℕ+) (S : ℕ) (m : ℤ)
    (input : ℕ → ℚ) (out0 : ℕ → FV) (j : ℕ) (hj : j < S) (hSt : S ≤ (tpb : ℕ))
    (hm0 : 0 ≤ m)
    (hZ : (∑ i in Finset.range ((min (S : ℤ) m).toNat), E (input i)) ≠ 0) :
    maskedSoftmaxKernelSmall E tpb S m input out0 j
      = if j < (min (S : ℤ) m).toNat
        then FV.fin (E (input j)
          / ∑ i in Finset.range ((min (S : ℤ) m).toNat), E (input i))
        else FV.fin 0 := by
  unfold maskedSoftmaxKernelSmall
  exact softmaxSmall_apply E tpb S (min (S : ℤ) m) input out0 j hj (by omega)
    (by omega) (by omega) hZ

lemma maskedSoftmaxKernel_apply (E : ℚ → ℚ) (tpb : ℕ+) (S : ℕ) (m : ℤ)
    (input : ℕ → ℚ) (out0 : ℕ → FV) (j : ℕ) (hj : j < S)
    (hZ : (∑ i in Finset.range ((min (S : ℤ) m).toNat), E (input i)) ≠ 0) :
    maskedSoftmaxKernel E tpb S m input out0 j
      = if j < (min (S : ℤ) m).toNat
        then FV.fin (E (input j)
          / ∑ i in Finset.range ((min (S : ℤ) m).toNat), E (input i))
        else FV.fin 0 := by
  unfold maskedSoftmaxKernel
  exact softmax_apply E tpb S (min (S : ℤ) m) input out0 j hj hZ

lemma maskedSoftmaxUnopt_apply (E : ℚ → ℚ) (S : ℕ) (m : ℤ)
    (input : ℕ → ℚ) (out0 : ℕ → FV) (j : ℕ) (hj : j < S)
    (hZ : (∑ i in Finset.range ((min (S : ℤ) m).toNat), E (input i)) ≠ 0) :
    maskedSoftmaxUnopt E S m input out0 j
      = if j < (min (S : ℤ) m).toNat
        then FV.fin (E (input j)
          / ∑ i in Finset.range ((min (S : ℤ) m).toNat), E (input i))
        else FV.fin 0 := by
  simp only [maskedSoftmaxUnopt]
  rw [if_pos hj]
  by_cases hjL : j < (min (S : ℤ) m).toNat
  · rw [if_pos hjL, if_pos hjL]
    simp only [FV.div, if_neg hZ]
  · rw [if_neg hjL, if_neg hjL]

/-- With a clamped valid length min(S, mask entry) of exactly 0 (a mask
entry of 0, for a positive S), the small kernel writes NaN at every row
position: no thread passes the unsigned comparison t < 0, thread_data
stays 0, the reduced z is 0, reverse_z is +inf, and 0 times +inf is NaN.
(A negative mask entry is a different regime: the int-to-unsigned
conversion then makes every thread valid.) -/
lemma kernelSmall_nan_of_zero_valid (E : ℚ → ℚ) (tpb : ℕ+) (S : ℕ) (m : ℤ)
    (input : ℕ → ℚ) (out0 : ℕ → FV) (j : ℕ)
    (hm : min (S : ℤ) m = 0) (hj : j < S) (hjt : j < (tpb : ℕ)) :
    maskedSoftmaxKernelSmall E tpb S m input out0 j = FV.nan := by
  unfold maskedSoftmaxKernelSmall
  simp only [softmaxSmall, hm]
  have hui : uintOfInt 0 = 0 := by
    unfold uintOfInt
    rw [if_neg (by omega)]
  rw [hui]
  rw [if_pos (⟨hjt, hj⟩ : j < (tpb : ℕ) ∧ j < S)]
  rw [if_neg (show ¬ (j : ℤ) < 0 by omega)]
  have hz0 : (∑ t in Finset.range (tpb : ℕ),
      (if (t : ℤ) < 0 then E (input t) else 0)) = 0 := by
    apply Finset.sum_eq_zero
    intro t ht
    rw [if_neg (by omega)]
  rw [hz0]
  simp [FV.inv, FV.mul]

/-- With a mask entry of at most 0, the general kernel writes an exact 0 at
every row position: the signed comparison i < last_valid fails for every
i >= 0, and the masked branch stores the literal 0.f without touching
reverse_z. -/
lemma kernel_zero_of_nonpos (E : ℚ → ℚ) (tpb : ℕ+) (S : ℕ) (m : ℤ)
    (input : ℕ → ℚ) (out0 : ℕ → FV) (j : ℕ) (hm : m ≤ 0) (hj : j < S) :
    maskedSoftmaxKernel E tpb S m input out0 j = FV.fin 0 := by
  unfold maskedSoftmaxKernel
  simp only [softmax]
  rw [if_pos hj, if_neg (show ¬ (j : ℤ) < min (S : ℤ) m by omega)]

/-- C1 as amended: for a row whose clamped valid length L = min(S, mask
entry) is at least 1, and with expf positive as the real exponential is,
the dispatched masked softmax writes exp(score j) / Z at j < L, where Z is
the direct sum of exponentials over j < L with no max-subtraction, and an
exact 0 at L <= j < S.  (As stated over all rows the claim fails: with a
mask entry of 0 the small strategies write NaN, see the counterexample.) -/
theorem computeMaskedSoftmax_formula_of_pos_valid
    (E : ℚ → ℚ) (S : ℕ) (m : ℤ) (input : ℕ → ℚ) (out0 : ℕ → FV)
    (hE : ∀ q, 0 < E q) (hS : 0 < S) (hm : 1 ≤ m) (j : ℕ) (hj : j < S) :
    computeMaskedSoftmax E S m input out0 j
      = if j < (min (S : ℤ) m).toNat
        then FV.fin (E (input j)
          / ∑ i in Finset.range ((min (S : ℤ) m).toNat), E (input i))
        else FV.fin 0 := by
  have hL1 : 0 < (min (S : ℤ) m).toNat := by omega
  have hZ : (∑ i in Finset.range ((min (S : ℤ) m).toNat), E (input i)) ≠ 0 :=
    ne_of_gt (sumE_pos E input hE _ hL1)
  unfold computeMaskedSoftmax
  by_cases h1 : S ≤ 32
  · rw [if_pos h1]
    exact maskedSoftmaxKernelSmall_apply E 32 S m input out0 j hj h1 (by omega) hZ
  · rw [if_neg h1]
    by_cases h2 : S ≤ 128
    · rw [if_pos h2]
      exact maskedSoftmaxKernelSmall_apply E 128 S m input out0 j hj h2 (by omega) hZ
    · rw [if_neg h2]
      by_cases h3 : S = 384
      · rw [if_pos h3]
        exact maskedSoftmaxKernelSmall_apply E 384 S m input out0 j hj (le_of_eq h3)
          (by omega) hZ
      · rw [if_neg h3]
        exact maskedSoftmaxKernel_apply E 256 S m input out0 j hj hZ

/-- Counterexample for C1: at S = 2 with mask entry 0 (so L = 0) the
dispatched kernel is the small strategy, and the output at position 0,
which the claim says is exactly 0 since 0 >= L, is NaN instead. -/
theorem computeMaskedSoftmax_maskZero_not_zero :
    computeMaskedSoftmax (fun _ => 1) 2 0 (fun _ => 0) (fun _ => FV.fin 0) 0 = FV.nan
    ∧ computeMaskedSoftmax (fun _ => 1) 2 0 (fun _ => 0) (fun _ => FV.fin 0) 0
        ≠ FV.fin 0 := by
  have hd : computeMaskedSoftmax (fun _ => (1 : ℚ)) 2 0 (fun _ => 0) (fun _ => FV.fin 0)
      = maskedSoftmaxKernelSmall (fun _ => 1) 32 2 0 (fun _ => 0) (fun _ => FV.fin 0) :=
    rfl
  have h := kernelSmall_nan_of_zero_valid (fun _ => (1 : ℚ)) 32 2 0 (fun _ => 0)
    (fun _ => FV.fin 0) 0 (by omega) (by omega) (by decide)
  rw [hd, h]
  exact ⟨rfl, by decide⟩

/-- Witness for C1 at a concrete input (S = 2, mask entry 1). -/
theorem computeMaskedSoftmax_formula_witness :
    ((0 : ℕ) < 2 ∧ (1 : ℤ) ≤ 1 ∧ (0 : ℕ) < 2 ∧ (0 : ℚ) < 1)
    ∧ computeMaskedSoftmax (fun _ => 1) 2 1 (fun _ => 0) (fun _ => FV.fin 0) 0
        = FV.fin 1 := by
  constructor
  · refine ⟨by omega, by omega, by omega, by norm_num⟩
  · have h := computeMaskedSoftmax_formula_of_pos_valid (fun _ => 1) 2 1
      (fun _ => 0) (fun _ => FV.fin 0) (fun _ => one_pos) (by omega) (by omega)
      0 (by omega)
    rw [h]
    rw [show (min ((2 : ℕ) : ℤ) 1).toNat = 1 from by omega]
    rw [if_pos (by omega : (0 : ℕ) < 1)]
    rw [Finset.sum_range_one]
    norm_num

/-- C2 as amended: on any row whose clamped valid length is at least 1 and
with expf positive, the small strategy (any block size covering the row)
and the general strategy (any block size) both write exactly what the
single unoptimized masked-softmax algorithm prescribes, hence agree with
each other, in the exact-arithmetic model of the kernels.  (As stated over
all inputs the claim fails: with a mask entry of 0 the small strategy
writes NaN where the general strategy writes 0, see the counterexample.) -/
theorem softmax_strategies_agree_of_pos_valid
    (E : ℚ → ℚ) (tpb tpb2 : ℕ+) (S : ℕ) (m : ℤ) (input : ℕ → ℚ)
    (o0 o1 o2 : ℕ → FV)
    (hE : ∀ q, 0 < E q) (hS : 0 < S) (hm : 1 ≤ m) (hSt : S ≤ (tpb : ℕ))
    (j : ℕ) (hj : j < S) :
    maskedSoftmaxKernelSmall E tpb S m input o0 j
      = maskedSoftmaxUnopt E S m input o2 j
    ∧ maskedSoftmaxKernel E tpb2 S m input o1 j
      = maskedSoftmaxUnopt E S m input o2 j := by
  have hL1 : 0 < (min (S : ℤ) m).toNat := by omega
  have hZ : (∑ i in Finset.range ((min (S : ℤ) m).toNat), E (input i)) ≠ 0 :=
    ne_of_gt (sumE_pos E input hE _ hL1)
  constructor
  · rw [maskedSoftmaxKernelSmall_apply E tpb S m input o0 j hj hSt (by omega) hZ,
      maskedSoftmaxUnopt_apply E S m input o2 j hj hZ]
  · rw [maskedSoftmaxKernel_apply E tpb2 S m input o1 j hj hZ,
      maskedSoftmaxUnopt_apply E S m input o2 j hj hZ]

/-- Counterexample for C2: on the same row (S = 2, mask entry 0) the small
strategy and the general strategy disagree, so they are not bit-for-bit
identical for every input: the small one writes NaN, the general one 0. -/
theorem softmax_small_general_disagree :
    maskedSoftmaxKernelSmall (fun _ => 1) 32 2 0 (fun _ => 0) (fun _ => FV.fin 0) 0
      ≠ maskedSoftmaxKernel (fun _ => 1) 256 2 0 (fun _ => 0) (fun _ => FV.fin 0) 0 := by
  rw [kernelSmall_nan_of_zero_valid (fun _ => (1 : ℚ)) 32 2 0 (fun _ => 0)
      (fun _ => FV.fin 0) 0 (by omega) (by omega) (by decide),
    kernel_zero_of_nonpos (fun _ => (1 : ℚ)) 256 2 0 (fun _ => 0)
      (fun _ => FV.fin 0) 0 (by omega) (by omega)]
  decide

/-- Witness for C2 at a concrete input (S = 2, mask entry 1, block sizes
32 and 256). -/
theorem softmax_strategies_agree_witness :
    ((0 : ℕ) < 2 ∧ (1 : ℤ) ≤ 1 ∧ (2 : ℕ) ≤ (((32 : ℕ+)) : ℕ) ∧ (0 : ℚ) < 1)
    ∧ (maskedSoftmaxKernelSmall (fun _ => 1) 32 2 1 (fun _ => 0) (fun _ => FV.fin 0) 0
        = maskedSoftmaxUnopt (fun _ => 1) 2 1 (fun _ => 0) (fun _ => FV.fin 0) 0
      ∧ maskedSoftmaxKernel (fun _ => 1) 256 2 1 (fun _ => 0) (fun _ => FV.fin 0) 0
        = maskedSoftmaxUnopt (fun _ => 1) 2 1 (fun _ => 0) (fun _ => FV.fin 0) 0) :=
  ⟨⟨by omega, by omega, by decide, by norm_num⟩,
   softmax_strategies_agree_of_pos_valid (fun _ => 1) 32 256 2 1 (fun _ => 0)
     (fun _ => FV.fin 0) (fun _ => FV.fin 0) (fun _ => FV.fin 0)
     (fun _ => one_pos) (by omega) (by omega) (by decide) 0 (by omega)⟩

/-- C8 as amended: on a row whose clamped valid length min(S, mask entry)
is exactly 0, the reduced sum Z is 0 in both strategies, and the small
strategy does write non-finite outputs (NaN at every row position), but
the general strategy writes an exact, finite 0 at every row position,
because its masked branch stores the literal 0 without using reverse_z.
(As stated, with non-finite outputs regardless of strategy, the claim
fails: see the counterexample at S = 129, which dispatches to the general
strategy.  A negative mask entry does not give valid length 0: the
unsigned comparison of the small kernel then treats every thread as
valid, so that regime is outside this theorem and outside the claim.) -/
theorem masked_softmax_zero_valid_behavior
    (E : ℚ → ℚ) (tpb tpb2 : ℕ+) (S : ℕ) (m : ℤ) (input : ℕ → ℚ)
    (o0 o1 : ℕ → FV)
    (hm : min (S : ℤ) m = 0) (hS : 0 < S) (hSt : S ≤ (tpb : ℕ))
    (j : ℕ) (hj : j < S) :
    (∑ i in Finset.range ((min (S : ℤ) m).toNat), E (input i)) = 0
    ∧ maskedSoftmaxKernelSmall E tpb S m input o0 j = FV.nan
    ∧ (maskedSoftmaxKernelSmall E tpb S m input o0 j).isFinite = false
    ∧ maskedSoftmaxKernel E tpb2 S m input o1 j = FV.fin 0
    ∧ (maskedSoftmaxKernel E tpb2 S m input o1 j).isFinite = true := by
  have hL0 : (min (S : ℤ) m).toNat = 0 := by omega
  have hsum : (∑ i in Finset.range ((min (S : ℤ) m).toNat), E (input i)) = 0 := by
    rw [hL0]
    simp
  have hsmall := kernelSmall_nan_of_zero_valid E tpb S m input o0 j hm hj (by omega)
  have hgen := kernel_zero_of_nonpos E tpb2 S m input o1 j (by omega) hj
  refine ⟨hsum, hsmall, by rw [hsmall]; rfl, hgen, by rw [hgen]; rfl⟩

/-- Counterexample for C8: at S = 129 (which dispatches to the general
strategy) with mask entry 0, the output is the exact finite 0, not a
non-finite value. -/
theorem computeMaskedSoftmax_general_finite_at_zero_mask :
    computeMaskedSoftmax (fun _ => 1) 129 0 (fun _ => 0) (fun _ => FV.fin 0) 0
      = FV.fin 0
    ∧ (computeMaskedSoftmax (fun _ => 1) 129 0 (fun _ => 0) (fun _ => FV.fin 0) 0).isFinite
      = true := by
  have hd : computeMaskedSoftmax (fun _ => (1 : ℚ)) 129 0 (fun _ => 0) (fun _ => FV.fin 0)
      = maskedSoftmaxKernel (fun _ => 1) 256 129 0 (fun _ => 0) (fun _ => FV.fin 0) :=
    rfl
  have h := kernel_zero_of_nonpos (fun _ => (1 : ℚ)) 256 129 0 (fun _ => 0)
    (fun _ => FV.fin 0) 0 (by omega) (by omega)
  rw [hd, h]
  exact ⟨rfl, rfl⟩

/-- Witness for C8 at a concrete input (S = 2, mask entry 0, block sizes
32 and 256, row position 1). -/
theorem masked_softmax_zero_valid_witness :
    (min ((2 : ℕ) : ℤ) 0 = 0 ∧ (0 : ℕ) < 2 ∧ (2 : ℕ) ≤ (((32 : ℕ+)) : ℕ) ∧ (1 : ℕ) < 2)
    ∧ ((∑ i in Finset.range ((min ((2 : ℕ) : ℤ) 0).toNat),
          (fun _ : ℚ => (1 : ℚ)) ((fun _ : ℕ => (0 : ℚ)) i)) = 0
      ∧ maskedSoftmaxKernelSmall (fun _ => 1) 32 2 0 (fun _ => 0) (fun _ => FV.fin 0) 1
          = FV.nan
      ∧ (maskedSoftmaxKernelSmall (fun _ => 1) 32 2 0 (fun _ => 0) (fun _ => FV.fin 0) 1).isFinite
          = false
      ∧ maskedSoftmaxKernel (fun _ => 1) 256 2 0 (fun _ => 0) (fun _ => FV.fin 0) 1
          = FV.fin 0
      ∧ (maskedSoftmaxKernel (fun _ => 1) 256 2 0 (fun _ => 0) (fun _ => FV.fin 0) 1).isFinite
          = true) :=
  ⟨⟨by omega, by omega, by decide, by omega⟩,
   masked_softmax_zero_valid_behavior (fun _ => 1) 32 256 2 0 (fun _ => 0)
     (fun _ => FV.fin 0) (fun _ => FV.fin 0) (by omega) (by omega) (by decide)
     1 (by omega)⟩
